import Mathlib

/-!
Verification development for the reference 8x8 DCT / IDCT / quantization
surface declared in `DCT8x8_Gold.h`.  The header only declares the four
operations (`computeDCT8x8Gold1`, `computeIDCT8x8Gold1`, `quantizeGoldFloat`,
`quantizeGoldShort`); their bodies live in `DCT8x8_Gold.cpp` and the `ROI`
type lives in `BmpUtil.h`, neither of which is part of the repository
snapshot.  Consequently the operations are modelled from the specification:
buffers are total maps from flat sample indices to sample values, a plane is
addressed row-major with an explicit stride, arithmetic on samples is exact
real (for the float planes) respectively integer/rational (for the 16-bit
plane), and each operation is a pure function from the caller-supplied
buffers to the new contents of its destination buffer.
-/

namespace DCTGold

open Real Finset

/-- Modelled from the spec: the `ROI` descriptor declared in `BmpUtil.h`
(not in the snapshot): the rectangular extent `{width, height}` of the
region being processed, in samples. -/
structure ROI where
  width : Nat
  height : Nat
  deriving DecidableEq

/-- Modelled from the spec (section 4.1): entry `(i, j)` of the fixed 8x8 DCT
basis matrix `C` with standard orthonormal scaling,
`C[0][j] = sqrt(1/8)` and `C[i][j] = sqrt(2/8) * cos((2j+1)*i*pi/16)` for
`i > 0`, written over the natural-number index range `0..7`. -/
noncomputable def basisVal (i j : ℕ) : ℝ :=
  if i = 0 then Real.sqrt (1 / 8)
  else Real.sqrt (2 / 8) * Real.cos ((2 * (j : ℝ) + 1) * (i : ℝ) * Real.pi / 16)

/-- The 8x8 DCT basis matrix `C` assembled from `basisVal`. -/
noncomputable def Cmatrix : Matrix (Fin 8) (Fin 8) ℝ :=
  Matrix.of fun i j => basisVal i.val j.val

/-- Modelled from the spec (section 4.1): the 1D 8-point DCT-II of the vector
`v`, evaluated at output frequency `k`: the inner product of `v` with row `k`
of the basis matrix. -/
noncomputable def dct1dN (v : ℕ → ℝ) (k : ℕ) : ℝ :=
  ∑ j ∈ Finset.range 8, basisVal k j * v j

/-- Modelled from the spec (section 4.2): the 1D 8-point DCT-III (inverse
transform) of the coefficient vector `v`, evaluated at sample position `j`:
the inner product of `v` with column `j` of the basis matrix. -/
noncomputable def idct1dN (v : ℕ → ℝ) (j : ℕ) : ℝ :=
  ∑ k ∈ Finset.range 8, basisVal k j * v k

/-- Modelled from the spec (section 4.1): the separable 2D DCT-II of an 8x8
block: the 1D DCT-II applied to each row, then to each resulting column. -/
noncomputable def dct2dN (B : ℕ → ℕ → ℝ) (u v : ℕ) : ℝ :=
  dct1dN (fun i => dct1dN (B i) v) u

/-- Modelled from the spec (section 4.2): the separable 2D DCT-III (inverse)
of an 8x8 coefficient block: the 1D DCT-III applied to each row, then to each
resulting column. -/
noncomputable def idct2dN (M : ℕ → ℕ → ℝ) (i j : ℕ) : ℝ :=
  idct1dN (fun u => idct1dN (M u) j) i

/-- The 8x8 block of plane `f` (stride `S`) whose top-left corner is at block
row `r` and block column `c`; entry `(i, j)` is the sample at flat index
`(r*8+i)*S + (c*8+j)`. -/
def blockAtN {α : Type} (f : ℕ → α) (S r c : ℕ) : ℕ → ℕ → α :=
  fun i j => f ((r * 8 + i) * S + (c * 8 + j))

/-- Modelled from the spec (sections 3 and 6): block-tiled processing of a
stride-`S` plane over the region `R`.  The sample at flat index `idx`
(row `idx / S`, column `idx % S`) is replaced by `val (idx / S) (idx % S)`
when it lies inside the region, and is left at the old destination value
otherwise (this covers stride padding beyond the logical width). -/
def tiled {α : Type} (old : ℕ → α) (S : ℕ) (R : ROI) (val : ℕ → ℕ → α) : ℕ → α :=
  fun idx =>
    if idx % S < R.width ∧ idx / S < R.height then val (idx / S) (idx % S) else old idx

/-- Modelled from the spec (section 4.1): `computeDCT8x8Gold1`, declared at
`DCT8x8_Gold.h:20` and implemented in the missing `DCT8x8_Gold.cpp`.  Given a
source plane `fSrc`, destination plane `fDst`, common stride and an ROI, it
writes into the destination the 2D DCT-II coefficients of every 8x8 block of
the region, each block transformed independently; the returned function is
the new contents of the destination buffer. -/
noncomputable def computeDCT8x8Gold1 (fSrc fDst : ℕ → ℝ) (Stride : ℕ) (Size : ROI) :
    ℕ → ℝ :=
  tiled fDst Stride Size fun y x =>
    dct2dN (blockAtN fSrc Stride (y / 8) (x / 8)) (y % 8) (x % 8)

/-- Modelled from the spec (section 4.2): `computeIDCT8x8Gold1`, declared at
`DCT8x8_Gold.h:21`: the separable 2D DCT-III applied to every 8x8 block of
the coefficient plane `fSrc`, writing reconstructed samples to `fDst`. -/
noncomputable def computeIDCT8x8Gold1 (fSrc fDst : ℕ → ℝ) (Stride : ℕ) (Size : ROI) :
    ℕ → ℝ :=
  tiled fDst Stride Size fun y x =>
    idct2dN (blockAtN fSrc Stride (y / 8) (x / 8)) (y % 8) (x % 8)

/-- Modelled from the spec (sections 3 and 4.3): the fixed 8x8 quantization
matrix of positive divisors (standard perceptual weighting, increasing with
spatial frequency).  The concrete table lives in the missing
`DCT8x8_Gold.cpp`; the standard JPEG luminance table is used here. -/
def quantRows : List (List ℕ) :=
  [[16, 11, 10, 16, 24, 40, 51, 61],
   [12, 12, 14, 19, 26, 58, 60, 55],
   [14, 13, 16, 24, 40, 57, 69, 56],
   [14, 17, 22, 29, 51, 87, 80, 62],
   [18, 22, 37, 56, 68, 109, 103, 77],
   [24, 35, 55, 64, 81, 104, 113, 92],
   [49, 64, 78, 87, 103, 121, 120, 101],
   [72, 92, 95, 98, 112, 100, 103, 99]]

/-- The quantization divisor `Q[i % 8][j % 8]` for the sample at plane row
`i` and plane column `j` (positions are reduced to their 8x8 block). -/
def qEntry (i j : ℕ) : ℕ :=
  ((quantRows.getD (i % 8) []).getD (j % 8)) 0

/-- Modelled from the spec (section 4.3): `quantizeGoldFloat`, declared at
`DCT8x8_Gold.h:22`: divides every coefficient at block position `(i, j)` by
`Q[i][j]`, in place, across all blocks of the region; no rounding is applied
(the result stays floating point). -/
noncomputable def quantizeGoldFloat (fSrcDst : ℕ → ℝ) (Stride : ℕ) (Size : ROI) :
    ℕ → ℝ :=
  tiled fSrcDst Stride Size fun y x =>
    fSrcDst (y * Stride + x) / (qEntry y x : ℝ)

/-- Modelled from the spec (section 4.3): the companion dequantization a
caller must provide before the inverse transform — multiplying every
coefficient back by `Q[i][j]`, in place (float variant; it is not declared
in `DCT8x8_Gold.h`, the spec requires it of the caller). -/
noncomputable def dequantizeGoldFloat (fSrcDst : ℕ → ℝ) (Stride : ℕ) (Size : ROI) :
    ℕ → ℝ :=
  tiled fSrcDst Stride Size fun y x =>
    fSrcDst (y * Stride + x) * (qEntry y x : ℝ)

/-- Modelled from the spec (section 4.4): `quantizeGoldShort`, declared at
`DCT8x8_Gold.h:23`: divides every 16-bit coefficient at block position
`(i, j)` by `Q[i][j]` and rounds the quotient to the nearest integer (not
truncating), in place, across all blocks of the region. -/
def quantizeGoldShort (fSrcDst : ℕ → ℤ) (Stride : ℕ) (Size : ROI) : ℕ → ℤ :=
  tiled fSrcDst Stride Size fun y x =>
    round ((fSrcDst (y * Stride + x) : ℚ) / (qEntry y x : ℚ))

/-- Modelled from the spec (section 4.3): the companion dequantization for
the 16-bit variant — multiplying every coefficient back by `Q[i][j]`. -/
def dequantizeGoldShort (fSrcDst : ℕ → ℤ) (Stride : ℕ) (Size : ROI) : ℕ → ℤ :=
  tiled fSrcDst Stride Size fun y x =>
    fSrcDst (y * Stride + x) * (qEntry y x : ℤ)

/-- Follows the spec's words (section 4.1): the matrix form `C * B * Cᵀ` of
the forward transform, stated with the `Cmatrix` basis, for comparison with
the separable row/column implementation. -/
noncomputable def dctMatrixSpec (B : Matrix (Fin 8) (Fin 8) ℝ) :
    Matrix (Fin 8) (Fin 8) ℝ :=
  Cmatrix * B * Cmatrix.transpose

/-- The 8x8 block at block coordinates `(r, c)` of plane `f`, as a matrix
(used to state the matrix-form contract of the forward transform). -/
noncomputable def blockMatrix (f : ℕ → ℝ) (S r c : ℕ) : Matrix (Fin 8) (Fin 8) ℝ :=
  Matrix.of fun i j => blockAtN f S r c i.val j.val

/-- The buffer `f` viewed from flat offset `o` onward — the model of the C
pointer `f + o` passed to a per-block call. -/
def shiftBuf {α : Type} (o : ℕ) (f : ℕ → α) : ℕ → α := fun k => f (o + k)

/-- A single independent 8x8 call of the forward transform on the quadrant
at flat offset `o`: the C call `computeDCT8x8Gold1(fSrc + o, dst + o, S,
{8, 8})`, merged back into the full destination buffer. -/
noncomputable def subCallDCT (fSrc : ℕ → ℝ) (S : ℕ) (dst : ℕ → ℝ) (o : ℕ) : ℕ → ℝ :=
  fun idx =>
    if o ≤ idx then
      computeDCT8x8Gold1 (shiftBuf o fSrc) (shiftBuf o dst) S ⟨8, 8⟩ (idx - o)
    else dst idx

/-- A single independent 8x8 call of the inverse transform on the quadrant
at flat offset `o`. -/
noncomputable def subCallIDCT (fSrc : ℕ → ℝ) (S : ℕ) (dst : ℕ → ℝ) (o : ℕ) : ℕ → ℝ :=
  fun idx =>
    if o ≤ idx then
      computeIDCT8x8Gold1 (shiftBuf o fSrc) (shiftBuf o dst) S ⟨8, 8⟩ (idx - o)
    else dst idx

/-- A single independent in-place 8x8 call of the float quantizer on the
quadrant at flat offset `o`. -/
noncomputable def subCallQF (S : ℕ) (dst : ℕ → ℝ) (o : ℕ) : ℕ → ℝ :=
  fun idx =>
    if o ≤ idx then quantizeGoldFloat (shiftBuf o dst) S ⟨8, 8⟩ (idx - o)
    else dst idx

/-- A single independent in-place 8x8 call of the 16-bit quantizer on the
quadrant at flat offset `o`. -/
def subCallQS (S : ℕ) (dst : ℕ → ℤ) (o : ℕ) : ℕ → ℤ :=
  fun idx =>
    if o ≤ idx then quantizeGoldShort (shiftBuf o dst) S ⟨8, 8⟩ (idx - o)
    else dst idx

/-- Overwrite, in a stride-`S` plane, exactly the 8x8 quadrant whose rows are
`[a, a+8)` and columns `[b, b+8)` with the values of `w`, leaving every other
sample of `d` unchanged (the normal form of one independent 8x8 call). -/
def maskWrite {α : Type} (S : ℕ) (w : ℕ → ℕ → α) (a b : ℕ) (d : ℕ → α) : ℕ → α :=
  fun idx =>
    if b ≤ idx % S ∧ idx % S < b + 8 ∧ a ≤ idx / S ∧ idx / S < a + 8 then
      w (idx / S) (idx % S)
    else d idx

/-- A per-position value function over a stride-`S` plane is block-local on
the 16x16 region when it depends only on the samples of the 8x8 block
containing its position (the form all four operations take). -/
def BlockLocal {α : Type} (S : ℕ) (w : (ℕ → α) → ℕ → ℕ → α) : Prop :=
  ∀ d d2 : ℕ → α, ∀ y x : ℕ, y < 16 → x < 16 →
    (∀ y2 x2 : ℕ, y2 < 16 → x2 < 16 → y2 / 8 = y / 8 → x2 / 8 = x / 8 →
      d (y2 * S + x2) = d2 (y2 * S + x2)) → w d y x = w d2 y x

/-- Product-to-sum identity for cosines, used to reduce basis products to
plain cosine sums. -/
theorem cos_mul_cos_eq (x y : ℝ) :
    Real.cos x * Real.cos y = (Real.cos (x - y) + Real.cos (x + y)) / 2 := by
  rw [Real.cos_add, Real.cos_sub]; ring

/-- The cosine sum over the odd nodes of one 8-sample block vanishes for
every nonzero integer frequency multiplier `c` with `|c| < 16`. -/
theorem sum_cos_odd_mul (c : ℤ) (hc : c ≠ 0) (hlt : c.natAbs < 16) :
    ∑ j ∈ Finset.range 8, Real.cos ((2 * (j : ℝ) + 1) * (c : ℝ) * Real.pi / 16) = 0 := by
  set t : ℝ := (c : ℝ) * Real.pi / 16 with ht
  have hsin : Real.sin t ≠ 0 := by
    intro h0
    rcases Real.sin_eq_zero_iff.mp h0 with ⟨n, hn⟩
    have h1 : 16 * (n : ℝ) * Real.pi = (c : ℝ) * Real.pi := by
      rw [ht] at hn; linarith
    have h2 : (16 * n : ℤ) = c := by
      have h3 : ((16 * n : ℤ) : ℝ) = ((c : ℤ) : ℝ) := by
        push_cast
        exact mul_right_cancel₀ Real.pi_ne_zero h1
      exact_mod_cast h3
    omega
  have harg : ∀ j : ℕ, (2 * (j : ℝ) + 1) * (c : ℝ) * Real.pi / 16
      = (2 * (j : ℝ) + 1) * t := by
    intro j; rw [ht]; ring
  have key : ∀ j : ℕ, 2 * Real.sin t * Real.cos ((2 * (j : ℝ) + 1) * t)
      = Real.sin (2 * ((j + 1 : ℕ) : ℝ) * t) - Real.sin (2 * (j : ℝ) * t) := by
    intro j
    have e1 : 2 * ((j + 1 : ℕ) : ℝ) * t = (2 * (j : ℝ) + 1) * t + t := by
      push_cast; ring
    have e2 : 2 * (j : ℝ) * t = (2 * (j : ℝ) + 1) * t - t := by ring
    rw [e1, e2, Real.sin_add, Real.sin_sub]
    ring
  have tele : ∑ j ∈ Finset.range 8,
      (Real.sin (2 * ((j + 1 : ℕ) : ℝ) * t) - Real.sin (2 * (j : ℝ) * t))
      = Real.sin (2 * ((8 : ℕ) : ℝ) * t) - Real.sin (2 * ((0 : ℕ) : ℝ) * t) :=
    Finset.sum_range_sub (fun j : ℕ => Real.sin (2 * (j : ℝ) * t)) 8
  have hz : Real.sin (2 * ((8 : ℕ) : ℝ) * t) = 0 := by
    have e : 2 * ((8 : ℕ) : ℝ) * t = (c : ℝ) * Real.pi := by rw [ht]; push_cast; ring
    rw [e]
    exact Real.sin_int_mul_pi c
  have hmain : 2 * Real.sin t * (∑ j ∈ Finset.range 8,
      Real.cos ((2 * (j : ℝ) + 1) * (c : ℝ) * Real.pi / 16)) = 0 := by
    rw [Finset.mul_sum]
    calc ∑ j ∈ Finset.range 8,
          2 * Real.sin t * Real.cos ((2 * (j : ℝ) + 1) * (c : ℝ) * Real.pi / 16)
        = ∑ j ∈ Finset.range 8,
            (Real.sin (2 * ((j + 1 : ℕ) : ℝ) * t) - Real.sin (2 * (j : ℝ) * t)) := by
          refine Finset.sum_congr rfl fun j _ => ?_
          rw [harg j, key j]
      _ = 0 := by rw [tele, hz]; simp
  rcases mul_eq_zero.mp hmain with h | h
  · exact absurd (by linarith : Real.sin t = 0) hsin
  · exact h

/-- Row orthonormality of the DCT basis: the rows of `C` are orthonormal. -/
theorem basisVal_orth (i k : ℕ) (hi : i < 8) (hk : k < 8) :
    ∑ j ∈ Finset.range 8, basisVal i j * basisVal k j = if i = k then 1 else 0 := by
  rcases Nat.eq_zero_or_pos i with hi0 | hip
  · rcases Nat.eq_zero_or_pos k with hk0 | hkp
    · subst hi0; subst hk0
      simp only [basisVal, if_pos rfl, if_true]
      rw [Finset.sum_const, Finset.card_range]
      rw [Real.mul_self_sqrt (by norm_num : (0 : ℝ) ≤ 1 / 8)]
      norm_num
    · subst hi0
      have hkne : k ≠ 0 := hkp.ne'
      simp only [basisVal, if_neg hkne, eq_self_iff_true, if_true]
      have hpull : ∑ j ∈ Finset.range 8, Real.sqrt (1 / 8) *
            (Real.sqrt (2 / 8) * Real.cos ((2 * (j : ℝ) + 1) * (k : ℝ) * Real.pi / 16))
          = (Real.sqrt (1 / 8) * Real.sqrt (2 / 8)) *
            ∑ j ∈ Finset.range 8, Real.cos ((2 * (j : ℝ) + 1) * (k : ℝ) * Real.pi / 16) := by
        rw [Finset.mul_sum]
        exact Finset.sum_congr rfl fun j _ => by ring
      have hs := sum_cos_odd_mul (k : ℤ) (by exact_mod_cast hkne) (by omega)
      have hcast : (((k : ℤ) : ℝ)) = (k : ℝ) := by push_cast; ring
      rw [hcast] at hs
      rw [hpull, hs, mul_zero, if_neg (by omega : ¬ 0 = k)]
  · have hine : i ≠ 0 := hip.ne'
    rcases Nat.eq_zero_or_pos k with hk0 | hkp
    · subst hk0
      simp only [basisVal, if_neg hine, eq_self_iff_true, if_true]
      have hpull : ∑ j ∈ Finset.range 8,
            (Real.sqrt (2 / 8) * Real.cos ((2 * (j : ℝ) + 1) * (i : ℝ) * Real.pi / 16)) *
              Real.sqrt (1 / 8)
          = (Real.sqrt (2 / 8) * Real.sqrt (1 / 8)) *
            ∑ j ∈ Finset.range 8, Real.cos ((2 * (j : ℝ) + 1) * (i : ℝ) * Real.pi / 16) := by
        rw [Finset.mul_sum]
        exact Finset.sum_congr rfl fun j _ => by ring
      have hs := sum_cos_odd_mul (i : ℤ) (by exact_mod_cast hine) (by omega)
      have hcast : (((i : ℤ) : ℝ)) = (i : ℝ) := by push_cast; ring
      rw [hcast] at hs
      rw [hpull, hs, mul_zero]
    · have hkne : k ≠ 0 := hkp.ne'
      simp only [basisVal, if_neg hine, if_neg hkne]
      have h28 : Real.sqrt (2 / 8) * Real.sqrt (2 / 8) = 2 / 8 :=
        Real.mul_self_sqrt (by norm_num)
      have hstep : ∀ j : ℕ,
          (Real.sqrt (2 / 8) * Real.cos ((2 * (j : ℝ) + 1) * (i : ℝ) * Real.pi / 16)) *
            (Real.sqrt (2 / 8) * Real.cos ((2 * (j : ℝ) + 1) * (k : ℝ) * Real.pi / 16))
          = 1 / 8 * (Real.cos ((2 * (j : ℝ) + 1) * ((i : ℝ) - (k : ℝ)) * Real.pi / 16)
              + Real.cos ((2 * (j : ℝ) + 1) * ((i : ℝ) + (k : ℝ)) * Real.pi / 16)) := by
        intro j
        have hprod := cos_mul_cos_eq ((2 * (j : ℝ) + 1) * (i : ℝ) * Real.pi / 16)
          ((2 * (j : ℝ) + 1) * (k : ℝ) * Real.pi / 16)
        have e1 : (2 * (j : ℝ) + 1) * (i : ℝ) * Real.pi / 16
              - (2 * (j : ℝ) + 1) * (k : ℝ) * Real.pi / 16
            = (2 * (j : ℝ) + 1) * ((i : ℝ) - (k : ℝ)) * Real.pi / 16 := by ring
        have e2 : (2 * (j : ℝ) + 1) * (i : ℝ) * Real.pi / 16
              + (2 * (j : ℝ) + 1) * (k : ℝ) * Real.pi / 16
            = (2 * (j : ℝ) + 1) * ((i : ℝ) + (k : ℝ)) * Real.pi / 16 := by ring
        rw [e1, e2] at hprod
        calc (Real.sqrt (2 / 8) * Real.cos ((2 * (j : ℝ) + 1) * (i : ℝ) * Real.pi / 16)) *
              (Real.sqrt (2 / 8) * Real.cos ((2 * (j : ℝ) + 1) * (k : ℝ) * Real.pi / 16))
            = (Real.sqrt (2 / 8) * Real.sqrt (2 / 8)) *
              (Real.cos ((2 * (j : ℝ) + 1) * (i : ℝ) * Real.pi / 16) *
                Real.cos ((2 * (j : ℝ) + 1) * (k : ℝ) * Real.pi / 16)) := by ring
          _ = 1 / 8 * (Real.cos ((2 * (j : ℝ) + 1) * ((i : ℝ) - (k : ℝ)) * Real.pi / 16)
              + Real.cos ((2 * (j : ℝ) + 1) * ((i : ℝ) + (k : ℝ)) * Real.pi / 16)) := by
            rw [h28, hprod]; ring
      rw [Finset.sum_congr rfl fun j _ => hstep j, ← Finset.mul_sum,
        Finset.sum_add_distrib]
      by_cases hik : i = k
      · subst hik
        have hd : ∀ j : ℕ,
            Real.cos ((2 * (j : ℝ) + 1) * ((i : ℝ) - (i : ℝ)) * Real.pi / 16) = 1 := by
          intro j; simp
        rw [Finset.sum_congr rfl fun j _ => hd j, Finset.sum_const, Finset.card_range]
        have hs := sum_cos_odd_mul (2 * (i : ℤ)) (by omega) (by omega)
        have hcast : (((2 * (i : ℤ) : ℤ)) : ℝ) = (i : ℝ) + (i : ℝ) := by push_cast; ring
        rw [hcast] at hs
        rw [hs, if_pos rfl]
        norm_num
      · have hd := sum_cos_odd_mul ((i : ℤ) - (k : ℤ)) (by omega) (by omega)
        have hcd : ((((i : ℤ) - (k : ℤ)) : ℤ) : ℝ) = (i : ℝ) - (k : ℝ) := by
          push_cast; ring
        rw [hcd] at hd
        have hs := sum_cos_odd_mul ((i : ℤ) + (k : ℤ)) (by omega) (by omega)
        have hcs : ((((i : ℤ) + (k : ℤ)) : ℤ) : ℝ) = (i : ℝ) + (k : ℝ) := by
          push_cast; ring
        rw [hcs] at hs
        rw [hd, hs, if_neg hik]
        norm_num

/-- The DCT basis matrix times its transpose is the identity (row form). -/
theorem Cmatrix_mul_transpose : Cmatrix * Cmatrix.transpose = 1 := by
  ext i k
  rw [Matrix.mul_apply, Matrix.one_apply]
  have hterm : ∀ j : Fin 8, Cmatrix i j * Cmatrix.transpose j k
      = basisVal i.val j.val * basisVal k.val j.val := fun j => rfl
  rw [Finset.sum_congr rfl fun j _ => hterm j,
    Fin.sum_univ_eq_sum_range (fun j => basisVal i.val j * basisVal k.val j),
    basisVal_orth i.val k.val i.isLt k.isLt]
  simp [Fin.ext_iff]

/-- The transpose of the DCT basis matrix times the matrix itself is the
identity (column form). -/
theorem Ct_mul_C : Cmatrix.transpose * Cmatrix = 1 :=
  Matrix.mul_eq_one_comm.mp Cmatrix_mul_transpose

/-- Column orthonormality of the DCT basis, in summation form. -/
theorem col_orth (i a : ℕ) (hi : i < 8) (ha : a < 8) :
    ∑ u ∈ Finset.range 8, basisVal u i * basisVal u a = if i = a then 1 else 0 := by
  have h2 : (Cmatrix.transpose * Cmatrix) ⟨i, hi⟩ ⟨a, ha⟩
      = (1 : Matrix (Fin 8) (Fin 8) ℝ) ⟨i, hi⟩ ⟨a, ha⟩ := by rw [Ct_mul_C]
  rw [Matrix.mul_apply, Matrix.one_apply] at h2
  have hterm : ∀ u : Fin 8,
      Cmatrix.transpose ⟨i, hi⟩ u * Cmatrix u ⟨a, ha⟩
        = basisVal u.val i * basisVal u.val a := fun u => rfl
  rw [Finset.sum_congr rfl fun u _ => hterm u,
    Fin.sum_univ_eq_sum_range (fun u => basisVal u i * basisVal u a)] at h2
  rw [h2]
  simp [Fin.ext_iff]

/-- Interchange a product of block sums (Fubini for the finite 8x8 range). -/
theorem sum_swap_factor (f g : ℕ → ℝ) (h : ℕ → ℕ → ℝ) :
    ∑ v ∈ Finset.range 8, f v * (∑ a ∈ Finset.range 8, g a * h v a)
      = ∑ a ∈ Finset.range 8, g a * (∑ v ∈ Finset.range 8, f v * h v a) := by
  simp_rw [Finset.mul_sum]
  rw [Finset.sum_comm]
  exact Finset.sum_congr rfl fun a _ => Finset.sum_congr rfl fun v _ => by ring

/-- Collapsing a doubly-transformed vector through column orthonormality. -/
theorem collapse_col (j : ℕ) (hj : j < 8) (w : ℕ → ℝ) :
    ∑ v ∈ Finset.range 8, basisVal v j *
      (∑ b ∈ Finset.range 8, basisVal v b * w b) = w j := by
  have h1 : ∀ v : ℕ, (∑ b ∈ Finset.range 8, basisVal v b * w b)
      = ∑ b ∈ Finset.range 8, w b * basisVal v b :=
    fun v => Finset.sum_congr rfl fun b _ => mul_comm _ _
  calc ∑ v ∈ Finset.range 8, basisVal v j *
        (∑ b ∈ Finset.range 8, basisVal v b * w b)
      = ∑ v ∈ Finset.range 8, basisVal v j *
        (∑ b ∈ Finset.range 8, w b * basisVal v b) :=
        Finset.sum_congr rfl fun v _ => by rw [h1 v]
    _ = ∑ b ∈ Finset.range 8, w b *
        (∑ v ∈ Finset.range 8, basisVal v j * basisVal v b) :=
        sum_swap_factor (fun v => basisVal v j) w (fun v b => basisVal v b)
    _ = ∑ b ∈ Finset.range 8, w b * (if j = b then 1 else 0) :=
        Finset.sum_congr rfl fun b hb => by
          rw [col_orth j b hj (Finset.mem_range.mp hb)]
    _ = w j := by simp [mul_ite, Finset.sum_ite_eq, hj]

/-- The separable inverse transform undoes the separable forward transform
on every 8x8 block (exact, over the reals). -/
theorem idct2dN_dct2dN (B : ℕ → ℕ → ℝ) (i j : ℕ) (hi : i < 8) (hj : j < 8) :
    idct2dN (dct2dN B) i j = B i j := by
  simp only [idct2dN, idct1dN, dct2dN, dct1dN]
  have inner : ∀ u : ℕ,
      (∑ v ∈ Finset.range 8, basisVal v j *
        (∑ a ∈ Finset.range 8, basisVal u a *
          (∑ b ∈ Finset.range 8, basisVal v b * B a b)))
        = ∑ a ∈ Finset.range 8, basisVal u a * B a j := by
    intro u
    rw [sum_swap_factor (fun v => basisVal v j) (fun a => basisVal u a)
      (fun v a => ∑ b ∈ Finset.range 8, basisVal v b * B a b)]
    exact Finset.sum_congr rfl fun a _ => by rw [collapse_col j hj (B a)]
  calc ∑ u ∈ Finset.range 8, basisVal u i *
        (∑ v ∈ Finset.range 8, basisVal v j *
          (∑ a ∈ Finset.range 8, basisVal u a *
            (∑ b ∈ Finset.range 8, basisVal v b * B a b)))
      = ∑ u ∈ Finset.range 8, basisVal u i *
        (∑ a ∈ Finset.range 8, basisVal u a * B a j) :=
        Finset.sum_congr rfl fun u _ => by rw [inner u]
    _ = B i j := collapse_col i hi (fun a => B a j)

/-- Row and column of a flat index recombine to the index (stride `S`). -/
theorem decode_sum (idx S : ℕ) : idx / S * S + idx % S = idx := by
  rw [mul_comm]; exact Nat.div_add_mod idx S

/-- Division decode of a row-major flat index built from row `y` and an
in-stride column `x`. -/
theorem decode_div (y x S : ℕ) (hx : x < S) : (y * S + x) / S = y := by
  rw [add_comm, Nat.add_mul_div_right x y (by omega : 0 < S), Nat.div_eq_of_lt hx]
  omega

/-- Remainder decode of a row-major flat index built from row `y` and an
in-stride column `x`. -/
theorem decode_mod (y x S : ℕ) (hx : x < S) : (y * S + x) % S = x := by
  rw [add_comm, Nat.add_mul_mod_self_right]
  exact Nat.mod_eq_of_lt hx

/-- The inverse 2D transform only reads the 8x8 window of its block. -/
theorem idct2dN_congr (B B2 : ℕ → ℕ → ℝ) (i j : ℕ)
    (h : ∀ a b, a < 8 → b < 8 → B a b = B2 a b) :
    idct2dN B i j = idct2dN B2 i j := by
  simp only [idct2dN, idct1dN]
  refine Finset.sum_congr rfl fun u hu => ?_
  have hin : (∑ k ∈ Finset.range 8, basisVal k j * B u k)
      = ∑ k ∈ Finset.range 8, basisVal k j * B2 u k :=
    Finset.sum_congr rfl fun k hk => by
      rw [h u k (Finset.mem_range.mp hu) (Finset.mem_range.mp hk)]
  rw [hin]

/-- Reading an 8x8 block back out of the forward transform's destination
yields exactly the 2D DCT-II of the corresponding source block. -/
theorem blockAtN_computeDCT (fSrc fDst : ℕ → ℝ) (S : ℕ) (R : ROI)
    (hws : R.width ≤ S) (r c : ℕ) (hr : (r + 1) * 8 ≤ R.height)
    (hc : (c + 1) * 8 ≤ R.width) (i j : ℕ) (hi : i < 8) (hj : j < 8) :
    blockAtN (computeDCT8x8Gold1 fSrc fDst S R) S r c i j
      = dct2dN (blockAtN fSrc S r c) i j := by
  have hxw : c * 8 + j < R.width := by omega
  have hx : c * 8 + j < S := lt_of_lt_of_le hxw hws
  have hyh : r * 8 + i < R.height := by omega
  simp only [blockAtN, computeDCT8x8Gold1, tiled]
  rw [decode_div (r * 8 + i) (c * 8 + j) S hx, decode_mod (r * 8 + i) (c * 8 + j) S hx]
  rw [if_pos ⟨hxw, hyh⟩]
  have e1 : (r * 8 + i) / 8 = r := by omega
  have e2 : (c * 8 + j) / 8 = c := by omega
  have e3 : (r * 8 + i) % 8 = i := by omega
  have e4 : (c * 8 + j) % 8 = j := by omega
  rw [e1, e2, e3, e4]

/-- Claim C1: for every 8x8 block of float samples inside a well-formed ROI
(dimensions multiples of 8, stride at least the width), applying
`computeDCT8x8Gold1` and then `computeIDCT8x8Gold1` reproduces the source
sample at every in-region position.  In the exact-real model of the spec the
round trip is an exact identity, which implies the claimed 1e-4 relative
floating-point tolerance. -/
theorem claim1_dct_idct_roundtrip (fSrc fDst fDst2 : ℕ → ℝ) (S : ℕ) (R : ROI)
    (hw : R.width % 8 = 0) (hh : R.height % 8 = 0) (hws : R.width ≤ S) (idx : ℕ)
    (hx : idx % S < R.width) (hy : idx / S < R.height) :
    computeIDCT8x8Gold1 (computeDCT8x8Gold1 fSrc fDst S R) fDst2 S R idx
      = fSrc idx := by
  have hbr : (idx / S / 8 + 1) * 8 ≤ R.height := by omega
  have hbc : (idx % S / 8 + 1) * 8 ≤ R.width := by omega
  simp only [computeIDCT8x8Gold1, tiled]
  rw [if_pos ⟨hx, hy⟩]
  have hcongr : idct2dN
      (blockAtN (computeDCT8x8Gold1 fSrc fDst S R) S (idx / S / 8) (idx % S / 8))
        (idx / S % 8) (idx % S % 8)
      = idct2dN (dct2dN (blockAtN fSrc S (idx / S / 8) (idx % S / 8)))
        (idx / S % 8) (idx % S % 8) :=
    idct2dN_congr _ _ _ _ fun a b ha hb =>
      blockAtN_computeDCT fSrc fDst S R hws (idx / S / 8) (idx % S / 8) hbr hbc a b ha hb
  rw [hcongr, idct2dN_dct2dN _ _ _ (by omega) (by omega)]
  simp only [blockAtN]
  have e : (idx / S / 8 * 8 + idx / S % 8) * S + (idx % S / 8 * 8 + idx % S % 8)
      = idx := by
    have h1 : idx / S / 8 * 8 + idx / S % 8 = idx / S := by omega
    have h2 : idx % S / 8 * 8 + idx % S % 8 = idx % S := by omega
    rw [h1, h2]
    exact decode_sum idx S
  rw [e]

/-- Witness for C1 at a concrete single-block input. -/
theorem claim1_witness :
    ((8 : ℕ) % 8 = 0 ∧ (8 : ℕ) % 8 = 0 ∧ (8 : ℕ) ≤ 8 ∧ (0 : ℕ) % 8 < 8 ∧
        (0 : ℕ) / 8 < 8) ∧
      computeIDCT8x8Gold1
          (computeDCT8x8Gold1 (fun k : ℕ => (k : ℝ)) (fun _ => 0) 8 ⟨8, 8⟩)
          (fun _ => 0) 8 ⟨8, 8⟩ 0
        = (fun k : ℕ => (k : ℝ)) 0 :=
  ⟨⟨by decide, by decide, by decide, by decide, by decide⟩,
    claim1_dct_idct_roundtrip (fun k : ℕ => (k : ℝ)) (fun _ => 0) (fun _ => 0) 8
      ⟨8, 8⟩ (by decide) (by decide) (by decide) 0 (by decide) (by decide)⟩

/-- The separable row-then-column transform agrees with the matrix form
`C * B * Cᵀ` on every 8x8 block. -/
theorem dct2dN_eq_matrix (B : ℕ → ℕ → ℝ) (i j : Fin 8) :
    dct2dN B i.val j.val
      = (Cmatrix * Matrix.of (fun a b : Fin 8 => B a.val b.val) *
          Cmatrix.transpose) i j := by
  have hrhs : (Cmatrix * Matrix.of (fun a b : Fin 8 => B a.val b.val) *
        Cmatrix.transpose) i j
      = ∑ b ∈ Finset.range 8,
          (∑ a ∈ Finset.range 8, basisVal i.val a * B a b) * basisVal j.val b := by
    rw [Matrix.mul_apply]
    have hterm : ∀ b : Fin 8,
        (Cmatrix * Matrix.of (fun a b : Fin 8 => B a.val b.val)) i b *
            Cmatrix.transpose b j
          = (∑ a ∈ Finset.range 8, basisVal i.val a * B a b.val) *
              basisVal j.val b.val := by
      intro b
      rw [Matrix.mul_apply]
      have hin : ∑ a : Fin 8,
          Cmatrix i a * Matrix.of (fun a b : Fin 8 => B a.val b.val) a b
          = ∑ a ∈ Finset.range 8, basisVal i.val a * B a b.val := by
        rw [← Fin.sum_univ_eq_sum_range (fun a => basisVal i.val a * B a b.val)]
        rfl
      rw [hin]
      rfl
    rw [Finset.sum_congr rfl fun b _ => hterm b,
      Fin.sum_univ_eq_sum_range
        (fun b => (∑ a ∈ Finset.range 8, basisVal i.val a * B a b) *
          basisVal j.val b)]
  rw [hrhs]
  simp only [dct2dN, dct1dN]
  rw [sum_swap_factor (fun a => basisVal i.val a) (fun b => basisVal j.val b)
    (fun a b => B a b)]
  exact Finset.sum_congr rfl fun b _ => by ring

/-- Claim C2: on a well-formed region (dimensions multiples of 8, stride at
least the ROI width), `computeDCT8x8Gold1` writes, for every 8x8 block at
block coordinates `(r, c)` and every in-block position `(i, j)`, the entry
`(i, j)` of `C * B * Cᵀ`, where `C` is the fixed orthonormal DCT basis matrix
with `C[0][j] = sqrt(1/8)` and `C[i][j] = sqrt(2/8)*cos((2j+1)*i*pi/16)` for
`i > 0`, and `B` the 8x8 source block; the output is an unclamped real. -/
theorem claim2_dct_matrix_form (fSrc fDst : ℕ → ℝ) (S : ℕ) (R : ROI)
    (hw : R.width % 8 = 0) (hh : R.height % 8 = 0) (hws : R.width ≤ S)
    (r c : ℕ) (hr : (r + 1) * 8 ≤ R.height) (hc : (c + 1) * 8 ≤ R.width)
    (i j : Fin 8) :
    computeDCT8x8Gold1 fSrc fDst S R ((r * 8 + i.val) * S + (c * 8 + j.val))
      = dctMatrixSpec (blockMatrix fSrc S r c) i j :=
  calc computeDCT8x8Gold1 fSrc fDst S R ((r * 8 + i.val) * S + (c * 8 + j.val))
      = blockAtN (computeDCT8x8Gold1 fSrc fDst S R) S r c i.val j.val := rfl
    _ = dct2dN (blockAtN fSrc S r c) i.val j.val :=
        blockAtN_computeDCT fSrc fDst S R hws r c hr hc i.val j.val i.isLt j.isLt
    _ = (Cmatrix * Matrix.of
          (fun a b : Fin 8 => blockAtN fSrc S r c a.val b.val) *
            Cmatrix.transpose) i j := dct2dN_eq_matrix (blockAtN fSrc S r c) i j
    _ = dctMatrixSpec (blockMatrix fSrc S r c) i j := rfl

/-- Witness for C2 at a concrete single-block input. -/
theorem claim2_witness :
    ((8 : ℕ) % 8 = 0 ∧ (8 : ℕ) % 8 = 0 ∧ (8 : ℕ) ≤ 8 ∧ (0 + 1) * 8 ≤ 8) ∧
      computeDCT8x8Gold1 (fun k => (k : ℝ)) (fun _ => 0) 8 ⟨8, 8⟩
          ((0 * 8 + (0 : Fin 8).val) * 8 + (0 * 8 + (0 : Fin 8).val))
        = dctMatrixSpec (blockMatrix (fun k => (k : ℝ)) 8 0 0) 0 0 :=
  ⟨⟨by decide, by decide, by decide, by decide⟩,
    claim2_dct_matrix_form (fun k => (k : ℝ)) (fun _ => 0) 8 ⟨8, 8⟩
      (by decide) (by decide) (by decide) 0 0 (by decide) (by decide) 0 0⟩

/-- Every entry of the quantization table is a positive divisor. -/
theorem qEntry_pos (i j : ℕ) : 0 < qEntry i j := by
  have hi : i % 8 < 8 := Nat.mod_lt _ (by norm_num)
  have hj : j % 8 < 8 := Nat.mod_lt _ (by norm_num)
  have h8 : ∀ a < 8, ∀ b < 8, 0 < (quantRows.getD a []).getD b 0 := by decide
  exact h8 _ hi _ hj

/-- Claim C4: dequantizing the result of `quantizeGoldFloat` restores the
coefficient plane exactly — the float quantize/dequantize round trip is the
identity on the whole buffer (both inside and outside the region). -/
theorem claim4_quant_dequant_float (f : ℕ → ℝ) (S : ℕ) (R : ROI) :
    dequantizeGoldFloat (quantizeGoldFloat f S R) S R = f := by
  funext idx
  simp only [dequantizeGoldFloat, quantizeGoldFloat, tiled]
  have e : idx / S * S + idx % S = idx := decode_sum idx S
  by_cases h : idx % S < R.width ∧ idx / S < R.height
  · rw [if_pos h, e, if_pos h, e]
    have hq : (qEntry (idx / S) (idx % S) : ℝ) ≠ 0 := by
      have := qEntry_pos (idx / S) (idx % S)
      exact_mod_cast this.ne'
    exact div_mul_cancel₀ (f idx) hq
  · rw [if_neg h, if_neg h]

/-- Claim C3: for every in-range 16-bit coefficient inside the region,
`quantizeGoldShort` replaces it with the division by `Q[i][j]` rounded to
the nearest integer: the stored value is `round(v / Q)`, and it is at least
as close to the true quotient as every other integer (so it is not the
truncation). -/
theorem claim3_quant_short_nearest (f : ℕ → ℤ) (S : ℕ) (R : ROI) (idx : ℕ)
    (hx : idx % S < R.width) (hy : idx / S < R.height)
    (hlo : -32768 ≤ f idx) (hhi : f idx ≤ 32767) :
    quantizeGoldShort f S R idx
        = round ((f idx : ℚ) / (qEntry (idx / S) (idx % S) : ℚ))
      ∧ ∀ n : ℤ,
        |(quantizeGoldShort f S R idx : ℚ)
            - (f idx : ℚ) / (qEntry (idx / S) (idx % S) : ℚ)|
          ≤ |(n : ℚ) - (f idx : ℚ) / (qEntry (idx / S) (idx % S) : ℚ)| := by
  have e : idx / S * S + idx % S = idx := decode_sum idx S
  have hval : quantizeGoldShort f S R idx
      = round ((f idx : ℚ) / (qEntry (idx / S) (idx % S) : ℚ)) := by
    simp only [quantizeGoldShort, tiled]
    rw [e, if_pos ⟨hx, hy⟩]
  refine ⟨hval, fun n => ?_⟩
  rw [hval]
  have h := round_le ((f idx : ℚ) / (qEntry (idx / S) (idx % S) : ℚ)) n
  calc |((round ((f idx : ℚ) / (qEntry (idx / S) (idx % S) : ℚ)) : ℤ) : ℚ)
        - (f idx : ℚ) / (qEntry (idx / S) (idx % S) : ℚ)|
      = |(f idx : ℚ) / (qEntry (idx / S) (idx % S) : ℚ)
          - ((round ((f idx : ℚ) / (qEntry (idx / S) (idx % S) : ℚ)) : ℤ) : ℚ)| :=
        abs_sub_comm _ _
    _ ≤ |(f idx : ℚ) / (qEntry (idx / S) (idx % S) : ℚ) - (n : ℚ)| := h
    _ = |(n : ℚ) - (f idx : ℚ) / (qEntry (idx / S) (idx % S) : ℚ)| :=
        abs_sub_comm _ _

/-- Witness for C3: with all samples 100, stride 8 and an 8x8 region, the
quantizer stores `round(100/16) = 6` at the origin, and 6 is at least as
close to 100/16 as the truncation 7 is on the other side. -/
theorem claim3_witness :
    ((0 : ℕ) % 8 < 8 ∧ (0 : ℕ) / 8 < 8 ∧ (-32768 : ℤ) ≤ 100 ∧ (100 : ℤ) ≤ 32767) ∧
      quantizeGoldShort (fun _ => 100) 8 ⟨8, 8⟩ 0
          = round ((100 : ℚ) / (qEntry (0 / 8) (0 % 8) : ℚ)) ∧
      |((quantizeGoldShort (fun _ => 100) 8 ⟨8, 8⟩ 0 : ℤ) : ℚ)
          - (100 : ℚ) / (qEntry (0 / 8) (0 % 8) : ℚ)|
        ≤ |((7 : ℤ) : ℚ) - (100 : ℚ) / (qEntry (0 / 8) (0 % 8) : ℚ)| :=
  ⟨⟨by decide, by decide, by decide, by decide⟩,
    (claim3_quant_short_nearest (fun _ => 100) 8 ⟨8, 8⟩ 0
      (by decide) (by decide) (by decide) (by decide)).1,
    (claim3_quant_short_nearest (fun _ => 100) 8 ⟨8, 8⟩ 0
      (by decide) (by decide) (by decide) (by decide)).2 7⟩

/-- Claim C5: for every in-range 16-bit coefficient inside the region, the
error of `quantizeGoldShort` followed by dequantization (multiplying back by
`Q[i][j]`) is at most `Q[i][j] / 2` — the nearest-rounding guarantee. -/
theorem claim5_quant_short_error (f : ℕ → ℤ) (S : ℕ) (R : ROI) (idx : ℕ)
    (hx : idx % S < R.width) (hy : idx / S < R.height)
    (hlo : -32768 ≤ f idx) (hhi : f idx ≤ 32767) :
    |(f idx : ℚ)
        - ((dequantizeGoldShort (quantizeGoldShort f S R) S R idx : ℤ) : ℚ)|
      ≤ (qEntry (idx / S) (idx % S) : ℚ) / 2 := by
  have e : idx / S * S + idx % S = idx := decode_sum idx S
  simp only [dequantizeGoldShort, quantizeGoldShort, tiled]
  rw [e, if_pos ⟨hx, hy⟩, if_pos ⟨hx, hy⟩, e]
  have hqpos : (0 : ℚ) < (qEntry (idx / S) (idx % S) : ℚ) := by
    exact_mod_cast qEntry_pos (idx / S) (idx % S)
  have hxq : (f idx : ℚ)
      = (f idx : ℚ) / (qEntry (idx / S) (idx % S) : ℚ) *
          (qEntry (idx / S) (idx % S) : ℚ) :=
    (div_mul_cancel₀ _ hqpos.ne').symm
  have hsplit : (f idx : ℚ)
      - ((round ((f idx : ℚ) / (qEntry (idx / S) (idx % S) : ℚ)) *
          (qEntry (idx / S) (idx % S) : ℤ) : ℤ) : ℚ)
      = ((f idx : ℚ) / (qEntry (idx / S) (idx % S) : ℚ)
          - (round ((f idx : ℚ) / (qEntry (idx / S) (idx % S) : ℚ)) : ℚ)) *
          (qEntry (idx / S) (idx % S) : ℚ) := by
    push_cast
    rw [sub_mul, ← hxq]
  rw [hsplit, abs_mul, abs_of_pos hqpos]
  have hb := abs_sub_round ((f idx : ℚ) / (qEntry (idx / S) (idx % S) : ℚ))
  calc |(f idx : ℚ) / (qEntry (idx / S) (idx % S) : ℚ)
        - (round ((f idx : ℚ) / (qEntry (idx / S) (idx % S) : ℚ)) : ℚ)| *
          (qEntry (idx / S) (idx % S) : ℚ)
      ≤ 1 / 2 * (qEntry (idx / S) (idx % S) : ℚ) :=
        mul_le_mul_of_nonneg_right hb hqpos.le
    _ = (qEntry (idx / S) (idx % S) : ℚ) / 2 := by ring

/-- Witness for C5 at the same concrete input as C3. -/
theorem claim5_witness :
    ((0 : ℕ) % 8 < 8 ∧ (0 : ℕ) / 8 < 8 ∧ (-32768 : ℤ) ≤ 100 ∧ (100 : ℤ) ≤ 32767) ∧
      |((100 : ℤ) : ℚ)
          - ((dequantizeGoldShort
              (quantizeGoldShort (fun _ => 100) 8 ⟨8, 8⟩) 8 ⟨8, 8⟩ 0 : ℤ) : ℚ)|
        ≤ ((qEntry (0 / 8) (0 % 8) : ℕ) : ℚ) / 2 :=
  ⟨⟨by decide, by decide, by decide, by decide⟩,
    claim5_quant_short_error (fun _ => 100) 8 ⟨8, 8⟩ 0
      (by decide) (by decide) (by decide) (by decide)⟩

/-- The 1D DCT-II of a constant 8-vector: all energy at frequency zero. -/
theorem dct1dN_const (c : ℝ) (k : ℕ) (hk : k < 8) :
    dct1dN (fun _ => c) k = if k = 0 then 8 * Real.sqrt (1 / 8) * c else 0 := by
  by_cases hk0 : k = 0
  · subst hk0
    simp only [dct1dN, basisVal, eq_self_iff_true, if_true]
    rw [Finset.sum_const, Finset.card_range, nsmul_eq_mul]
    push_cast
    ring
  · simp only [dct1dN, basisVal, if_neg hk0]
    have hpull : ∑ j ∈ Finset.range 8,
          Real.sqrt (2 / 8) * Real.cos ((2 * (j : ℝ) + 1) * (k : ℝ) * Real.pi / 16) * c
        = (Real.sqrt (2 / 8) * c) *
          ∑ j ∈ Finset.range 8,
            Real.cos ((2 * (j : ℝ) + 1) * (k : ℝ) * Real.pi / 16) := by
      rw [Finset.mul_sum]
      exact Finset.sum_congr rfl fun j _ => by ring
    have hs := sum_cos_odd_mul (k : ℤ) (by exact_mod_cast hk0) (by omega)
    have hcast : (((k : ℤ)) : ℝ) = (k : ℝ) := by push_cast; ring
    rw [hcast] at hs
    rw [hpull, hs, mul_zero]

/-- Claim C6: the constant 8x8 block with every sample 128 transforms to a
block whose only nonzero coefficient is the DC entry `(0, 0)`, equal to the
closed form `8*8*128/8 = 1024` of the chosen orthonormal scaling (`sum/8`);
all AC coefficients are exactly zero. -/
theorem claim6_constant_block (fDst : ℕ → ℝ) (u v : ℕ) (hu : u < 8) (hv : v < 8) :
    computeDCT8x8Gold1 (fun _ => 128) fDst 8 ⟨8, 8⟩ (u * 8 + v)
      = if u = 0 ∧ v = 0 then 8 * 8 * 128 / 8 else 0 := by
  simp only [computeDCT8x8Gold1, tiled]
  rw [decode_div u v 8 hv, decode_mod u v 8 hv]
  rw [if_pos ⟨hv, hu⟩]
  have e1 : u / 8 = 0 := by omega
  have e2 : v / 8 = 0 := by omega
  have e3 : u % 8 = u := by omega
  have e4 : v % 8 = v := by omega
  rw [e1, e2, e3, e4]
  have hB : blockAtN (fun _ => (128 : ℝ)) 8 0 0 = fun _ _ => (128 : ℝ) := rfl
  rw [hB]
  simp only [dct2dN]
  simp only [dct1dN_const 128 v hv]
  rw [dct1dN_const _ u hu]
  by_cases hu0 : u = 0
  · by_cases hv0 : v = 0
    · subst hu0; subst hv0
      rw [if_pos rfl, if_pos rfl, if_pos (⟨rfl, rfl⟩ : (0 : ℕ) = 0 ∧ (0 : ℕ) = 0)]
      have h18 : Real.sqrt (1 / 8) * Real.sqrt (1 / 8) = 1 / 8 :=
        Real.mul_self_sqrt (by norm_num)
      calc (8 : ℝ) * Real.sqrt (1 / 8) * (8 * Real.sqrt (1 / 8) * 128)
          = (Real.sqrt (1 / 8) * Real.sqrt (1 / 8)) * (8 * 8 * 128) := by ring
        _ = 8 * 8 * 128 / 8 := by rw [h18]; norm_num
    · subst hu0
      rw [if_pos rfl, if_neg hv0, mul_zero,
        if_neg (by simp [hv0] : ¬((0 : ℕ) = 0 ∧ v = 0))]
  · rw [if_neg hu0, if_neg (by simp [hu0] : ¬(u = 0 ∧ v = 0))]

/-- Witness for C6 at the DC position. -/
theorem claim6_witness :
    ((0 : ℕ) < 8 ∧ (0 : ℕ) < 8) ∧
      computeDCT8x8Gold1 (fun _ => 128) (fun _ => 0) 8 ⟨8, 8⟩ (0 * 8 + 0)
        = if (0 : ℕ) = 0 ∧ (0 : ℕ) = 0 then 8 * 8 * 128 / 8 else 0 :=
  ⟨⟨by decide, by decide⟩,
    claim6_constant_block (fun _ => 0) 0 0 (by decide) (by decide)⟩

/-- Claim C8: the transforms have no effect beyond writing the region of the
destination: every destination sample outside the ROI — including stride
padding beyond the logical width — keeps its previous value, for both the
forward and the inverse transform (the source buffer is immutable by
construction in this functional model). -/
theorem claim8_no_side_effects (fSrc fDst : ℕ → ℝ) (S : ℕ) (R : ROI) (idx : ℕ)
    (h : ¬(idx % S < R.width ∧ idx / S < R.height)) :
    computeDCT8x8Gold1 fSrc fDst S R idx = fDst idx
      ∧ computeIDCT8x8Gold1 fSrc fDst S R idx = fDst idx := by
  constructor
  · simp only [computeDCT8x8Gold1, tiled]; rw [if_neg h]
  · simp only [computeIDCT8x8Gold1, tiled]; rw [if_neg h]

/-- Witness for C8 at a padding sample below the 8x8 region. -/
theorem claim8_witness :
    (¬((64 : ℕ) % 8 < 8 ∧ (64 : ℕ) / 8 < 8)) ∧
      computeDCT8x8Gold1 (fun _ => 0) (fun _ => 1) 8 ⟨8, 8⟩ 64
          = (fun _ : ℕ => (1 : ℝ)) 64 ∧
      computeIDCT8x8Gold1 (fun _ => 0) (fun _ => 1) 8 ⟨8, 8⟩ 64
          = (fun _ : ℕ => (1 : ℝ)) 64 :=
  ⟨by decide,
    (claim8_no_side_effects (fun _ => 0) (fun _ => 1) 8 ⟨8, 8⟩ 64 (by decide)).1,
    (claim8_no_side_effects (fun _ => 0) (fun _ => 1) 8 ⟨8, 8⟩ 64 (by decide)).2⟩

/-- Claim C9: each of the four operations is deterministic and stateless:
they are pure functions of their buffer arguments, stride and ROI, so two
invocations on pointwise-identical input buffers produce pointwise-identical
output buffers (there is no hidden state in the model to carry between
calls). -/
theorem claim9_deterministic (f f2 d d2 g g2 : ℕ → ℝ) (s s2 : ℕ → ℤ)
    (S : ℕ) (R : ROI)
    (h1 : ∀ k, f k = f2 k) (h2 : ∀ k, d k = d2 k) (h3 : ∀ k, g k = g2 k)
    (h4 : ∀ k, s k = s2 k) :
    (∀ idx, computeDCT8x8Gold1 f d S R idx = computeDCT8x8Gold1 f2 d2 S R idx)
      ∧ (∀ idx, computeIDCT8x8Gold1 f d S R idx
          = computeIDCT8x8Gold1 f2 d2 S R idx)
      ∧ (∀ idx, quantizeGoldFloat g S R idx = quantizeGoldFloat g2 S R idx)
      ∧ (∀ idx, quantizeGoldShort s S R idx = quantizeGoldShort s2 S R idx) := by
  have hf : f = f2 := funext h1
  have hd : d = d2 := funext h2
  have hg : g = g2 := funext h3
  have hs : s = s2 := funext h4
  subst hf; subst hd; subst hg; subst hs
  exact ⟨fun _ => rfl, fun _ => rfl, fun _ => rfl, fun _ => rfl⟩

/-- Witness for C9 on concrete identical buffers. -/
theorem claim9_witness :
    computeDCT8x8Gold1 (fun _ => 0) (fun _ => 1) 8 ⟨8, 8⟩ 3
      = computeDCT8x8Gold1 (fun _ => 0) (fun _ => 1) 8 ⟨8, 8⟩ 3 :=
  (claim9_deterministic (fun _ => 0) (fun _ => 0) (fun _ => 1) (fun _ => 1)
    (fun _ => 0) (fun _ => 0) (fun _ => 0) (fun _ => 0) 8 ⟨8, 8⟩
    (fun _ => rfl) (fun _ => rfl) (fun _ => rfl) (fun _ => rfl)).1 3

/-- The forward transform of an all-zero block is all-zero. -/
theorem dct2dN_zero (a b : ℕ) : dct2dN (fun _ _ => (0 : ℝ)) a b = 0 := by
  simp [dct2dN, dct1dN]

/-- The inverse transform of an all-zero block is all-zero. -/
theorem idct2dN_zero (a b : ℕ) : idct2dN (fun _ _ => (0 : ℝ)) a b = 0 := by
  simp [idct2dN, idct1dN]

/-- Claim C10: none of the four operations reports errors at runtime: each
is a total function that runs unconditionally on every input, including
precondition-violating ones.  Here all four are evaluated on a malformed
input (stride 3 smaller than the width 7, ROI 7x5 not a multiple of 8) and
still produce ordinary numeric output — there is no error channel, no
exception and no error code in the model. -/
theorem claim10_unconditional :
    (∀ idx, computeDCT8x8Gold1 (fun _ => 0) (fun _ => 5) 3 ⟨7, 5⟩ idx
        = if idx % 3 < 7 ∧ idx / 3 < 5 then 0 else 5)
      ∧ (∀ idx, computeIDCT8x8Gold1 (fun _ => 0) (fun _ => 5) 3 ⟨7, 5⟩ idx
        = if idx % 3 < 7 ∧ idx / 3 < 5 then 0 else 5)
      ∧ (∀ idx, quantizeGoldFloat (fun _ => 0) 3 ⟨7, 5⟩ idx = 0)
      ∧ quantizeGoldShort (fun _ => 100) 3 ⟨7, 5⟩ 0 = 6 := by
  refine ⟨fun idx => ?_, fun idx => ?_, fun idx => ?_, ?_⟩
  · simp only [computeDCT8x8Gold1, tiled]
    by_cases h : idx % 3 < 7 ∧ idx / 3 < 5
    · rw [if_pos h, if_pos h]
      exact dct2dN_zero _ _
    · rw [if_neg h, if_neg h]
  · simp only [computeIDCT8x8Gold1, tiled]
    by_cases h : idx % 3 < 7 ∧ idx / 3 < 5
    · rw [if_pos h, if_pos h]
      exact idct2dN_zero _ _
    · rw [if_neg h, if_neg h]
  · simp only [quantizeGoldFloat, tiled]
    by_cases h : idx % 3 < 7 ∧ idx / 3 < 5
    · rw [if_pos h]
      exact zero_div _
    · rw [if_neg h]
  · have hq : qEntry 0 0 = 16 := by decide
    simp only [quantizeGoldShort, tiled]
    norm_num [hq, round_eq]

/-- Unfolding equation for `tiled` at a single index. -/
theorem tiled_eval {α : Type} (old : ℕ → α) (S : ℕ) (R : ROI) (val : ℕ → ℕ → α)
    (idx : ℕ) :
    tiled old S R val idx
      = if idx % S < R.width ∧ idx / S < R.height then val (idx / S) (idx % S)
        else old idx := rfl

/-- Unfolding equation for `maskWrite` at a single index. -/
theorem maskWrite_eval {α : Type} (S : ℕ) (w : ℕ → ℕ → α) (a b : ℕ)
    (d : ℕ → α) (idx : ℕ) :
    maskWrite S w a b d idx
      = if b ≤ idx % S ∧ idx % S < b + 8 ∧ a ≤ idx / S ∧ idx / S < a + 8 then
          w (idx / S) (idx % S)
        else d idx := rfl

/-- A quadrant overwrite leaves every decoded sample outside its quadrant
unchanged. -/
theorem maskWrite_eval_out {α : Type} (S : ℕ) (w : ℕ → ℕ → α) (a b : ℕ)
    (d : ℕ → α) (y2 x2 : ℕ) (hx : x2 < S)
    (h : ¬(b ≤ x2 ∧ x2 < b + 8 ∧ a ≤ y2 ∧ y2 < a + 8)) :
    maskWrite S w a b d (y2 * S + x2) = d (y2 * S + x2) := by
  rw [maskWrite_eval, decode_div y2 x2 S hx, decode_mod y2 x2 S hx, if_neg h]

/-- One shifted 8x8 call at offset `a*S + b` (quadrant offsets `a`, `b` in
`{0, 8}`, stride at least 16), merged back into the full buffer, is exactly
the quadrant overwrite with the global per-position value function. -/
theorem tiled_sub_eq {α : Type} (S : ℕ) (hS : 16 ≤ S) (v vsub : ℕ → ℕ → α)
    (a b : ℕ) (ha : a = 0 ∨ a = 8) (hb : b = 0 ∨ b = 8)
    (hv : ∀ y x, vsub y x = v (a + y) (b + x)) (d : ℕ → α) (idx : ℕ) :
    (if a * S + b ≤ idx then
        tiled (shiftBuf (a * S + b) d) S ⟨8, 8⟩ vsub (idx - (a * S + b))
      else d idx)
      = maskWrite S v a b d idx := by
  have hS0 : 0 < S := by omega
  obtain ⟨y, x, hxS, rfl⟩ : ∃ y x, x < S ∧ y * S + x = idx :=
    ⟨idx / S, idx % S, Nat.mod_lt idx hS0, decode_sum idx S⟩
  rw [maskWrite_eval, decode_div y x S hxS, decode_mod y x S hxS]
  by_cases hya : a ≤ y
  · by_cases hxb : b ≤ x
    · have hmul : a * S ≤ y * S := Nat.mul_le_mul_right S hya
      have hmul2 : (y - a) * S + a * S = y * S := by
        rw [← add_mul, Nat.sub_add_cancel hya]
      have hle : a * S + b ≤ y * S + x := by omega
      rw [if_pos hle]
      have hsub : y * S + x - (a * S + b) = (y - a) * S + (x - b) := by omega
      rw [hsub, tiled_eval]
      have hxbS : x - b < S := by omega
      rw [decode_div (y - a) (x - b) S hxbS, decode_mod (y - a) (x - b) S hxbS]
      by_cases hin : x - b < 8 ∧ y - a < 8
      · rw [if_pos hin,
          if_pos (by omega : b ≤ x ∧ x < b + 8 ∧ a ≤ y ∧ y < a + 8)]
        rw [hv (y - a) (x - b)]
        have e1 : a + (y - a) = y := by omega
        have e2 : b + (x - b) = x := by omega
        rw [e1, e2]
      · rw [if_neg hin,
          if_neg (by omega : ¬(b ≤ x ∧ x < b + 8 ∧ a ≤ y ∧ y < a + 8))]
        show d (a * S + b + ((y - a) * S + (x - b))) = d (y * S + x)
        congr 1
        omega
    · rw [if_neg (by omega : ¬(b ≤ x ∧ x < b + 8 ∧ a ≤ y ∧ y < a + 8))]
      by_cases hle : a * S + b ≤ y * S + x
      · have hmul : a * S ≤ y * S := Nat.mul_le_mul_right S hya
        have hya2 : a < y := by
          by_contra hcon
          have hay : y = a := by omega
          rw [hay] at hle
          omega
        have hmul3 : (y - a - 1) * S + (a + 1) * S = y * S := by
          rw [← add_mul]; congr 1; omega
        have hmul4 : (a + 1) * S = a * S + S := by rw [add_mul, one_mul]
        rw [if_pos hle]
        have hsub : y * S + x - (a * S + b) = (y - a - 1) * S + (S - b + x) := by
          omega
        rw [hsub, tiled_eval]
        have hxS2 : S - b + x < S := by omega
        rw [decode_div (y - a - 1) (S - b + x) S hxS2,
          decode_mod (y - a - 1) (S - b + x) S hxS2]
        rw [if_neg (by omega : ¬(S - b + x < 8 ∧ y - a - 1 < 8))]
        show d (a * S + b + ((y - a - 1) * S + (S - b + x))) = d (y * S + x)
        congr 1
        omega
      · rw [if_neg hle]
  · have hmul : (y + 1) * S ≤ a * S := Nat.mul_le_mul_right S (by omega)
    have hmul2 : (y + 1) * S = y * S + S := by rw [add_mul, one_mul]
    rw [if_neg (by omega : ¬(a * S + b ≤ y * S + x)),
      if_neg (by omega : ¬(b ≤ x ∧ x < b + 8 ∧ a ≤ y ∧ y < a + 8))]

/-- A block-local value function does not see a quadrant overwrite that
misses the whole 8x8 block of its position. -/
theorem w_unwrite {α : Type} (S : ℕ) (hS : 16 ≤ S)
    (w : (ℕ → α) → ℕ → ℕ → α) (hw : BlockLocal S w) (z : ℕ → α)
    (a1 b1 y x : ℕ) (hy16 : y < 16) (hx16 : x < 16)
    (hout : ∀ y2 x2, y2 / 8 = y / 8 → x2 / 8 = x / 8 →
      ¬(b1 ≤ x2 ∧ x2 < b1 + 8 ∧ a1 ≤ y2 ∧ y2 < a1 + 8)) :
    w (maskWrite S (w z) a1 b1 z) y x = w z y x := by
  apply hw _ _ y x hy16 hx16
  intro y2 x2 h1 h2 h3 h4
  exact maskWrite_eval_out S (w z) a1 b1 z y2 x2 (by omega) (hout y2 x2 h3 h4)

/-- Quadrant overwrites of a block-local value function at distinct
quadrants commute. -/
theorem maskWrite_comm {α : Type} (S : ℕ) (hS : 16 ≤ S)
    (w : (ℕ → α) → ℕ → ℕ → α) (hw : BlockLocal S w) (z : ℕ → α)
    (a1 b1 a2 b2 : ℕ) (ha1 : a1 = 0 ∨ a1 = 8) (hb1 : b1 = 0 ∨ b1 = 8)
    (ha2 : a2 = 0 ∨ a2 = 8) (hb2 : b2 = 0 ∨ b2 = 8)
    (hne : ¬(a1 = a2 ∧ b1 = b2)) :
    maskWrite S (w (maskWrite S (w z) a1 b1 z)) a2 b2 (maskWrite S (w z) a1 b1 z)
      = maskWrite S (w (maskWrite S (w z) a2 b2 z)) a1 b1
          (maskWrite S (w z) a2 b2 z) := by
  funext idx
  rw [maskWrite_eval S (w (maskWrite S (w z) a1 b1 z)) a2 b2
      (maskWrite S (w z) a1 b1 z) idx,
    maskWrite_eval S (w (maskWrite S (w z) a2 b2 z)) a1 b1
      (maskWrite S (w z) a2 b2 z) idx]
  by_cases h1 : b1 ≤ idx % S ∧ idx % S < b1 + 8 ∧ a1 ≤ idx / S ∧ idx / S < a1 + 8
  · have h2 : ¬(b2 ≤ idx % S ∧ idx % S < b2 + 8 ∧ a2 ≤ idx / S ∧
        idx / S < a2 + 8) := by omega
    rw [if_neg h2, if_pos h1, maskWrite_eval S (w z) a1 b1 z idx, if_pos h1]
    exact (w_unwrite S hS w hw z a2 b2 (idx / S) (idx % S) (by omega) (by omega)
      (fun y2 x2 e1 e2 => by omega)).symm
  · by_cases h2 : b2 ≤ idx % S ∧ idx % S < b2 + 8 ∧ a2 ≤ idx / S ∧ idx / S < a2 + 8
    · rw [if_pos h2, if_neg h1, maskWrite_eval S (w z) a2 b2 z idx, if_pos h2]
      exact w_unwrite S hS w hw z a1 b1 (idx / S) (idx % S) (by omega) (by omega)
        (fun y2 x2 e1 e2 => by omega)
    · rw [if_neg h1, if_neg h2, maskWrite_eval S (w z) a1 b1 z idx, if_neg h1,
        maskWrite_eval S (w z) a2 b2 z idx, if_neg h2]

/-- Folding the four independent quadrant calls of a block-local operation,
in any order, over a stride-`S` plane (stride at least 16) produces exactly
the single 16x16 tiled call. -/
theorem foldl_quadrants {α : Type} (S : ℕ) (hS : 16 ≤ S)
    (w : (ℕ → α) → ℕ → ℕ → α) (hw : BlockLocal S w)
    (step : (ℕ → α) → ℕ → ℕ → α)
    (hstep : ∀ d a b, (a = 0 ∨ a = 8) → (b = 0 ∨ b = 8) →
      step d (a * S + b) = maskWrite S (w d) a b d)
    (d : ℕ → α) (l : List ℕ) (hl : l.Perm [0, 8, 8 * S, 8 * S + 8]) :
    l.foldl step d = tiled d S ⟨16, 16⟩ (w d) := by
  have hrep : ∀ o ∈ [0, 8, 8 * S, 8 * S + 8],
      ∃ a b, (a = 0 ∨ a = 8) ∧ (b = 0 ∨ b = 8) ∧ o = a * S + b := by
    intro o ho
    simp only [List.mem_cons, List.not_mem_nil, or_false] at ho
    rcases ho with h | h | h | h
    · exact ⟨0, 0, Or.inl rfl, Or.inl rfl, by omega⟩
    · exact ⟨0, 8, Or.inl rfl, Or.inr rfl, by omega⟩
    · exact ⟨8, 0, Or.inr rfl, Or.inl rfl, by omega⟩
    · exact ⟨8, 8, Or.inr rfl, Or.inr rfl, by omega⟩
  have hcomm : ∀ o1 ∈ [0, 8, 8 * S, 8 * S + 8], ∀ o2 ∈ [0, 8, 8 * S, 8 * S + 8],
      ∀ z : ℕ → α, step (step z o1) o2 = step (step z o2) o1 := by
    intro o1 h1 o2 h2 z
    by_cases heq : o1 = o2
    · rw [heq]
    · obtain ⟨a1, b1, ha1, hb1, rfl⟩ := hrep o1 h1
      obtain ⟨a2, b2, ha2, hb2, rfl⟩ := hrep o2 h2
      have hne : ¬(a1 = a2 ∧ b1 = b2) := by
        intro hpair
        exact heq (by rw [hpair.1, hpair.2])
      rw [hstep z a1 b1 ha1 hb1, hstep _ a2 b2 ha2 hb2,
        hstep z a2 b2 ha2 hb2, hstep _ a1 b1 ha1 hb1]
      exact maskWrite_comm S hS w hw z a1 b1 a2 b2 ha1 hb1 ha2 hb2 hne
  rw [hl.foldl_eq' (fun o1 ho1 o2 ho2 z => hcomm o1 (hl.subset ho1) o2
    (hl.subset ho2) z) d]
  simp only [List.foldl_cons, List.foldl_nil]
  rw [show step d 0 = maskWrite S (w d) 0 0 d by
    have h := hstep d 0 0 (Or.inl rfl) (Or.inl rfl)
    rw [show (0 : ℕ) * S + 0 = 0 by omega] at h
    exact h]
  rw [show step (maskWrite S (w d) 0 0 d) 8
      = maskWrite S (w (maskWrite S (w d) 0 0 d)) 0 8 (maskWrite S (w d) 0 0 d) by
    have h := hstep (maskWrite S (w d) 0 0 d) 0 8 (Or.inl rfl) (Or.inr rfl)
    rw [show (0 : ℕ) * S + 8 = 8 by omega] at h
    exact h]
  rw [show step (maskWrite S (w (maskWrite S (w d) 0 0 d)) 0 8
        (maskWrite S (w d) 0 0 d)) (8 * S)
      = maskWrite S (w (maskWrite S (w (maskWrite S (w d) 0 0 d)) 0 8
          (maskWrite S (w d) 0 0 d))) 8 0
          (maskWrite S (w (maskWrite S (w d) 0 0 d)) 0 8
            (maskWrite S (w d) 0 0 d)) by
    have h := hstep (maskWrite S (w (maskWrite S (w d) 0 0 d)) 0 8
      (maskWrite S (w d) 0 0 d)) 8 0 (Or.inr rfl) (Or.inl rfl)
    rw [show (8 : ℕ) * S + 0 = 8 * S by omega] at h
    exact h]
  rw [hstep _ 8 8 (Or.inr rfl) (Or.inr rfl)]
  funext idx
  have hx0 : 0 ≤ idx % S := Nat.zero_le _
  have hy0 : 0 ≤ idx / S := Nat.zero_le _
  rw [maskWrite_eval, tiled_eval]
  by_cases h8x : 8 ≤ idx % S
  all_goals by_cases h8y : 8 ≤ idx / S
  all_goals by_cases hin : idx % S < 16 ∧ idx / S < 16
  -- quadrant (8, 8)
  · rw [if_pos (by omega : 8 ≤ idx % S ∧ idx % S < 8 + 8 ∧ 8 ≤ idx / S ∧
        idx / S < 8 + 8),
      if_pos (by omega : idx % S < (16 : ℕ) ∧ idx / S < (16 : ℕ))]
    rw [w_unwrite S hS w hw _ 8 0 (idx / S) (idx % S) (by omega) (by omega)
        (fun y2 x2 e1 e2 => by omega),
      w_unwrite S hS w hw _ 0 8 (idx / S) (idx % S) (by omega) (by omega)
        (fun y2 x2 e1 e2 => by omega),
      w_unwrite S hS w hw _ 0 0 (idx / S) (idx % S) (by omega) (by omega)
        (fun y2 x2 e1 e2 => by omega)]
  · -- 8 ≤ x, 8 ≤ y, but outside the 16x16 region
    rw [if_neg (by omega : ¬(8 ≤ idx % S ∧ idx % S < 8 + 8 ∧ 8 ≤ idx / S ∧
        idx / S < 8 + 8)), if_neg hin]
    rw [maskWrite_eval S _ 8 0 _ idx,
      if_neg (by omega : ¬(0 ≤ idx % S ∧ idx % S < 0 + 8 ∧ 8 ≤ idx / S ∧
        idx / S < 8 + 8)),
      maskWrite_eval S _ 0 8 _ idx,
      if_neg (by omega : ¬(8 ≤ idx % S ∧ idx % S < 8 + 8 ∧ 0 ≤ idx / S ∧
        idx / S < 0 + 8)),
      maskWrite_eval S _ 0 0 _ idx,
      if_neg (by omega : ¬(0 ≤ idx % S ∧ idx % S < 0 + 8 ∧ 0 ≤ idx / S ∧
        idx / S < 0 + 8))]
  -- quadrant (0, 8) : 8 ≤ x, y < 8
  · rw [if_neg (by omega : ¬(8 ≤ idx % S ∧ idx % S < 8 + 8 ∧ 8 ≤ idx / S ∧
        idx / S < 8 + 8)),
      if_pos (by omega : idx % S < (16 : ℕ) ∧ idx / S < (16 : ℕ)),
      maskWrite_eval S _ 8 0 _ idx,
      if_neg (by omega : ¬(0 ≤ idx % S ∧ idx % S < 0 + 8 ∧ 8 ≤ idx / S ∧
        idx / S < 8 + 8)),
      maskWrite_eval S _ 0 8 _ idx,
      if_pos (by omega : 8 ≤ idx % S ∧ idx % S < 8 + 8 ∧ 0 ≤ idx / S ∧
        idx / S < 0 + 8)]
    rw [w_unwrite S hS w hw _ 0 0 (idx / S) (idx % S) (by omega) (by omega)
      (fun y2 x2 e1 e2 => by omega)]
  · -- 8 ≤ x, y < 8, outside the region (so 16 ≤ x)
    rw [if_neg (by omega : ¬(8 ≤ idx % S ∧ idx % S < 8 + 8 ∧ 8 ≤ idx / S ∧
        idx / S < 8 + 8)), if_neg hin,
      maskWrite_eval S _ 8 0 _ idx,
      if_neg (by omega : ¬(0 ≤ idx % S ∧ idx % S < 0 + 8 ∧ 8 ≤ idx / S ∧
        idx / S < 8 + 8)),
      maskWrite_eval S _ 0 8 _ idx,
      if_neg (by omega : ¬(8 ≤ idx % S ∧ idx % S < 8 + 8 ∧ 0 ≤ idx / S ∧
        idx / S < 0 + 8)),
      maskWrite_eval S _ 0 0 _ idx,
      if_neg (by omega : ¬(0 ≤ idx % S ∧ idx % S < 0 + 8 ∧ 0 ≤ idx / S ∧
        idx / S < 0 + 8))]
  -- quadrant (8, 0) : x < 8, 8 ≤ y
  · rw [if_neg (by omega : ¬(8 ≤ idx % S ∧ idx % S < 8 + 8 ∧ 8 ≤ idx / S ∧
        idx / S < 8 + 8)),
      if_pos (by omega : idx % S < (16 : ℕ) ∧ idx / S < (16 : ℕ)),
      maskWrite_eval S _ 8 0 _ idx,
      if_pos (by omega : 0 ≤ idx % S ∧ idx % S < 0 + 8 ∧ 8 ≤ idx / S ∧
        idx / S < 8 + 8)]
    rw [w_unwrite S hS w hw _ 0 8 (idx / S) (idx % S) (by omega) (by omega)
        (fun y2 x2 e1 e2 => by omega),
      w_unwrite S hS w hw _ 0 0 (idx / S) (idx % S) (by omega) (by omega)
        (fun y2 x2 e1 e2 => by omega)]
  · -- x < 8, 8 ≤ y, outside the region
    rw [if_neg (by omega : ¬(8 ≤ idx % S ∧ idx % S < 8 + 8 ∧ 8 ≤ idx / S ∧
        idx / S < 8 + 8)), if_neg hin,
      maskWrite_eval S _ 8 0 _ idx,
      if_neg (by omega : ¬(0 ≤ idx % S ∧ idx % S < 0 + 8 ∧ 8 ≤ idx / S ∧
        idx / S < 8 + 8)),
      maskWrite_eval S _ 0 8 _ idx,
      if_neg (by omega : ¬(8 ≤ idx % S ∧ idx % S < 8 + 8 ∧ 0 ≤ idx / S ∧
        idx / S < 0 + 8)),
      maskWrite_eval S _ 0 0 _ idx,
      if_neg (by omega : ¬(0 ≤ idx % S ∧ idx % S < 0 + 8 ∧ 0 ≤ idx / S ∧
        idx / S < 0 + 8))]
  -- quadrant (0, 0) : x < 8, y < 8
  · rw [if_neg (by omega : ¬(8 ≤ idx % S ∧ idx % S < 8 + 8 ∧ 8 ≤ idx / S ∧
        idx / S < 8 + 8)),
      if_pos (by omega : idx % S < (16 : ℕ) ∧ idx / S < (16 : ℕ)),
      maskWrite_eval S _ 8 0 _ idx,
      if_neg (by omega : ¬(0 ≤ idx % S ∧ idx % S < 0 + 8 ∧ 8 ≤ idx / S ∧
        idx / S < 8 + 8)),
      maskWrite_eval S _ 0 8 _ idx,
      if_neg (by omega : ¬(8 ≤ idx % S ∧ idx % S < 8 + 8 ∧ 0 ≤ idx / S ∧
        idx / S < 0 + 8)),
      maskWrite_eval S _ 0 0 _ idx,
      if_pos (by omega : 0 ≤ idx % S ∧ idx % S < 0 + 8 ∧ 0 ≤ idx / S ∧
        idx / S < 0 + 8)]
  · exact absurd (by omega : idx % S < 16 ∧ idx / S < 16) hin

/-- Shifting a buffer by a quadrant offset relocates block reads. -/
theorem blockAtN_shift (f : ℕ → ℝ) (S a b y x : ℕ)
    (ha : a = 0 ∨ a = 8) (hb : b = 0 ∨ b = 8) :
    blockAtN (shiftBuf (a * S + b) f) S (y / 8) (x / 8)
      = blockAtN f S ((a + y) / 8) ((b + x) / 8) := by
  funext i2 j2
  simp only [blockAtN, shiftBuf]
  congr 1
  rcases ha with rfl | rfl <;> rcases hb with rfl | rfl
  · rw [show (0 + y) / 8 = y / 8 by omega, show (0 + x) / 8 = x / 8 by omega]
    ring
  · rw [show (0 + y) / 8 = y / 8 by omega, show (8 + x) / 8 = x / 8 + 1 by omega]
    ring
  · rw [show (8 + y) / 8 = y / 8 + 1 by omega, show (0 + x) / 8 = x / 8 by omega]
    ring
  · rw [show (8 + y) / 8 = y / 8 + 1 by omega, show (8 + x) / 8 = x / 8 + 1 by omega]
    ring

/-- One independent 8x8 forward-transform call on a quadrant is the quadrant
overwrite with the global forward-transform values. -/
theorem subCallDCT_step (fSrc : ℕ → ℝ) (S : ℕ) (hS : 16 ≤ S) (d : ℕ → ℝ)
    (a b : ℕ) (ha : a = 0 ∨ a = 8) (hb : b = 0 ∨ b = 8) :
    subCallDCT fSrc S d (a * S + b)
      = maskWrite S
          (fun y x => dct2dN (blockAtN fSrc S (y / 8) (x / 8)) (y % 8) (x % 8))
          a b d := by
  refine funext fun idx => tiled_sub_eq S hS _ _ a b ha hb ?_ d idx
  intro y x
  show dct2dN (blockAtN (shiftBuf (a * S + b) fSrc) S (y / 8) (x / 8))
      (y % 8) (x % 8)
    = dct2dN (blockAtN fSrc S ((a + y) / 8) ((b + x) / 8))
      ((a + y) % 8) ((b + x) % 8)
  rw [blockAtN_shift fSrc S a b y x ha hb,
    show (a + y) % 8 = y % 8 by rcases ha with rfl | rfl <;> omega,
    show (b + x) % 8 = x % 8 by rcases hb with rfl | rfl <;> omega]

/-- One independent 8x8 inverse-transform call on a quadrant is the quadrant
overwrite with the global inverse-transform values. -/
theorem subCallIDCT_step (fSrc : ℕ → ℝ) (S : ℕ) (hS : 16 ≤ S) (d : ℕ → ℝ)
    (a b : ℕ) (ha : a = 0 ∨ a = 8) (hb : b = 0 ∨ b = 8) :
    subCallIDCT fSrc S d (a * S + b)
      = maskWrite S
          (fun y x => idct2dN (blockAtN fSrc S (y / 8) (x / 8)) (y % 8) (x % 8))
          a b d := by
  refine funext fun idx => tiled_sub_eq S hS _ _ a b ha hb ?_ d idx
  intro y x
  show idct2dN (blockAtN (shiftBuf (a * S + b) fSrc) S (y / 8) (x / 8))
      (y % 8) (x % 8)
    = idct2dN (blockAtN fSrc S ((a + y) / 8) ((b + x) / 8))
      ((a + y) % 8) ((b + x) % 8)
  rw [blockAtN_shift fSrc S a b y x ha hb,
    show (a + y) % 8 = y % 8 by rcases ha with rfl | rfl <;> omega,
    show (b + x) % 8 = x % 8 by rcases hb with rfl | rfl <;> omega]

/-- The quantization divisor is invariant under quadrant translation. -/
theorem qEntry_shift (a b y x : ℕ) (ha : a = 0 ∨ a = 8) (hb : b = 0 ∨ b = 8) :
    qEntry (a + y) (b + x) = qEntry y x := by
  simp only [qEntry]
  rw [show (a + y) % 8 = y % 8 by rcases ha with rfl | rfl <;> omega,
    show (b + x) % 8 = x % 8 by rcases hb with rfl | rfl <;> omega]

/-- One independent in-place 8x8 float-quantizer call on a quadrant is the
quadrant overwrite with the global quantized values. -/
theorem subCallQF_step (S : ℕ) (hS : 16 ≤ S) (d : ℕ → ℝ)
    (a b : ℕ) (ha : a = 0 ∨ a = 8) (hb : b = 0 ∨ b = 8) :
    subCallQF S d (a * S + b)
      = maskWrite S (fun y x => d (y * S + x) / (qEntry y x : ℝ)) a b d := by
  refine funext fun idx => tiled_sub_eq S hS _ _ a b ha hb ?_ d idx
  intro y x
  show d (a * S + b + (y * S + x)) / (qEntry y x : ℝ)
    = d ((a + y) * S + (b + x)) / (qEntry (a + y) (b + x) : ℝ)
  rw [show a * S + b + (y * S + x) = (a + y) * S + (b + x) by ring,
    qEntry_shift a b y x ha hb]

/-- One independent in-place 8x8 16-bit-quantizer call on a quadrant is the
quadrant overwrite with the global quantized values. -/
theorem subCallQS_step (S : ℕ) (hS : 16 ≤ S) (d : ℕ → ℤ)
    (a b : ℕ) (ha : a = 0 ∨ a = 8) (hb : b = 0 ∨ b = 8) :
    subCallQS S d (a * S + b)
      = maskWrite S
          (fun y x => round ((d (y * S + x) : ℚ) / (qEntry y x : ℚ))) a b d := by
  refine funext fun idx => tiled_sub_eq S hS _ _ a b ha hb ?_ d idx
  intro y x
  show round ((d (a * S + b + (y * S + x)) : ℚ) / (qEntry y x : ℚ))
    = round ((d ((a + y) * S + (b + x)) : ℚ) / (qEntry (a + y) (b + x) : ℚ))
  rw [show a * S + b + (y * S + x) = (a + y) * S + (b + x) by ring,
    qEntry_shift a b y x ha hb]

/-- Claim C7: for a stride of at least 16, processing a 16x16 region with a
single call produces exactly the same destination contents as four
independent 8x8 calls, one per block (the C calls on pointers offset by the
four quadrant origins), executed in any order — for each of the four
operations.  Each operation is block-local, so no cross-block state or
dependency exists. -/
theorem claim7_block_independence (fSrc fDst qf : ℕ → ℝ) (qs : ℕ → ℤ)
    (S : ℕ) (hS : 16 ≤ S) (l : List ℕ) (hl : l.Perm [0, 8, 8 * S, 8 * S + 8]) :
    l.foldl (subCallDCT fSrc S) fDst = computeDCT8x8Gold1 fSrc fDst S ⟨16, 16⟩
      ∧ l.foldl (subCallIDCT fSrc S) fDst
          = computeIDCT8x8Gold1 fSrc fDst S ⟨16, 16⟩
      ∧ l.foldl (subCallQF S) qf = quantizeGoldFloat qf S ⟨16, 16⟩
      ∧ l.foldl (subCallQS S) qs = quantizeGoldShort qs S ⟨16, 16⟩ := by
  refine ⟨?_, ?_, ?_, ?_⟩
  · exact foldl_quadrants S hS
      (fun _ y x => dct2dN (blockAtN fSrc S (y / 8) (x / 8)) (y % 8) (x % 8))
      (fun _ _ _ _ _ _ _ => rfl)
      (subCallDCT fSrc S)
      (fun d a b ha hb => subCallDCT_step fSrc S hS d a b ha hb)
      fDst l hl
  · exact foldl_quadrants S hS
      (fun _ y x => idct2dN (blockAtN fSrc S (y / 8) (x / 8)) (y % 8) (x % 8))
      (fun _ _ _ _ _ _ _ => rfl)
      (subCallIDCT fSrc S)
      (fun d a b ha hb => subCallIDCT_step fSrc S hS d a b ha hb)
      fDst l hl
  · exact foldl_quadrants S hS
      (fun g y x => g (y * S + x) / (qEntry y x : ℝ))
      (fun d d2 y x hy hx hagree => by
        show d (y * S + x) / (qEntry y x : ℝ) = d2 (y * S + x) / (qEntry y x : ℝ)
        rw [hagree y x hy hx rfl rfl])
      (subCallQF S)
      (fun d a b ha hb => subCallQF_step S hS d a b ha hb)
      qf l hl
  · exact foldl_quadrants S hS
      (fun g y x => round ((g (y * S + x) : ℚ) / (qEntry y x : ℚ)))
      (fun d d2 y x hy hx hagree => by
        show round ((d (y * S + x) : ℚ) / (qEntry y x : ℚ))
          = round ((d2 (y * S + x) : ℚ) / (qEntry y x : ℚ))
        rw [hagree y x hy hx rfl rfl])
      (subCallQS S)
      (fun d a b ha hb => subCallQS_step S hS d a b ha hb)
      qs l hl

/-- Witness for C7 with stride 16 and the four quadrant calls executed in
reverse order. -/
theorem claim7_witness :
    ((16 : ℕ) ≤ 16 ∧
        ([8 * 16 + 8, 8 * 16, 8, 0] : List ℕ).Perm [0, 8, 8 * 16, 8 * 16 + 8]) ∧
      (([8 * 16 + 8, 8 * 16, 8, 0] : List ℕ).foldl
            (subCallDCT (fun _ => 3) 16) (fun _ => 0)
          = computeDCT8x8Gold1 (fun _ => 3) (fun _ => 0) 16 ⟨16, 16⟩
        ∧ ([8 * 16 + 8, 8 * 16, 8, 0] : List ℕ).foldl
            (subCallIDCT (fun _ => 3) 16) (fun _ => 0)
          = computeIDCT8x8Gold1 (fun _ => 3) (fun _ => 0) 16 ⟨16, 16⟩
        ∧ ([8 * 16 + 8, 8 * 16, 8, 0] : List ℕ).foldl (subCallQF 16) (fun _ => 3)
          = quantizeGoldFloat (fun _ => 3) 16 ⟨16, 16⟩
        ∧ ([8 * 16 + 8, 8 * 16, 8, 0] : List ℕ).foldl (subCallQS 16)
            (fun _ => 100)
          = quantizeGoldShort (fun _ => 100) 16 ⟨16, 16⟩) :=
  ⟨⟨by decide, by decide⟩,
    claim7_block_independence (fun _ => 3) (fun _ => 0) (fun _ => 3)
      (fun _ => 100) 16 (by decide) [8 * 16 + 8, 8 * 16, 8, 0] (by decide)⟩

end DCTGold
